import Mathlib

/-!
Verification of the measurement-and-alignment pipeline of `boxen-rs`.

The development shallowly embeds the two library crates:

* `string-width/src/lib.rs` : `string_width` (displayed width of a text,
  ignoring ANSI escape sequences) and `widest_line`;
* `ansi-align/src/lib.rs` : `AlignOptions`, `ansi_align`, and the
  convenience wrappers `left`, `center`, `right`.

A Rust `&str` is embedded as a `List Char` (its sequence of Unicode
codepoints).  The two external crates the sources call
(`strip_ansi_escapes` and `unicode_width`) are not part of the
repository; they are modelled from the specification, and each such
definition carries a doc comment saying so.
-/

set_option autoImplicit false

namespace Boxen

/-- The escape character U+001B that introduces ANSI escape sequences. -/
def escChar : Char := Char.ofNat 27

/-- State of the escape-stripping scanner: scanning ordinary text,
just after an escape character, or inside a CSI sequence. -/
inductive StripState : Type
  | top
  | esc
  | csi
deriving DecidableEq

/-- Modelled from the spec: the scanner of the external
`strip_ansi_escapes` crate.  CSI-style sequences (the escape character,
`[`, then everything up to the first byte in the `0x40`–`0x7E` range)
are removed; an escape character seen inside a pending sequence restarts
escape recognition; anything that does not match the recognized pattern
is left untouched.  The scan is over codepoints, which agrees with the
byte-level scan on valid text because the scanner only ever stops at
ASCII bytes. -/
def stripLoop : StripState → List Char → List Char
  | _, [] => []
  | .top, c :: rest =>
      if c = escChar then stripLoop .esc rest
      else c :: stripLoop .top rest
  | .esc, c :: rest =>
      if c = '[' then stripLoop .csi rest
      else if c = escChar then escChar :: stripLoop .esc rest
      else escChar :: c :: stripLoop .top rest
  | .csi, c :: rest =>
      if 0x40 ≤ c.toNat ∧ c.toNat ≤ 0x7E then stripLoop .top rest
      else if c = escChar then stripLoop .esc rest
      else stripLoop .csi rest

/-- The call `strip_ansi_escapes::strip`, at codepoint level. -/
def stripAnsi (s : List Char) : List Char := stripLoop .top s

/-- Rust's `char::is_control`: the Unicode `Cc` category, i.e. the
ranges U+0000–U+001F and U+007F–U+009F. -/
def isControlChar (c : Char) : Prop :=
  c.toNat < 0x20 ∨ (0x7F ≤ c.toNat ∧ c.toNat ≤ 0x9F)

instance (c : Char) : Decidable (isControlChar c) := by
  unfold isControlChar; infer_instance

/-- Modelled from the spec: the external `unicode_width` crate's
per-codepoint column count with `unwrap_or(0)` applied, i.e. `0` for
combining and zero-width codepoints, `2` for wide/fullwidth East-Asian
codepoints, and `1` otherwise.  Only representative ranges of the
Unicode tables are reproduced. -/
def uniWidth (c : Char) : Nat :=
  let n := c.toNat
  if (0x300 ≤ n ∧ n ≤ 0x36F) ∨ (0x1AB0 ≤ n ∧ n ≤ 0x1AFF) ∨
     (0x1DC0 ≤ n ∧ n ≤ 0x1DFF) ∨ (0x20D0 ≤ n ∧ n ≤ 0x20FF) ∨
     (0x200B ≤ n ∧ n ≤ 0x200F) ∨ (0xFE00 ≤ n ∧ n ≤ 0xFE0F) ∨
     (0xFE20 ≤ n ∧ n ≤ 0xFE2F) ∨ n = 0xFEFF then 0
  else if (0x1100 ≤ n ∧ n ≤ 0x115F) ∨ (0x2E80 ≤ n ∧ n ≤ 0x303E) ∨
     (0x3041 ≤ n ∧ n ≤ 0x33FF) ∨ (0x3400 ≤ n ∧ n ≤ 0x4DBF) ∨
     (0x4E00 ≤ n ∧ n ≤ 0x9FFF) ∨ (0xA000 ≤ n ∧ n ≤ 0xA4CF) ∨
     (0xAC00 ≤ n ∧ n ≤ 0xD7A3) ∨ (0xF900 ≤ n ∧ n ≤ 0xFAFF) ∨
     (0xFE30 ≤ n ∧ n ≤ 0xFE4F) ∨ (0xFF00 ≤ n ∧ n ≤ 0xFF60) ∨
     (0xFFE0 ≤ n ∧ n ≤ 0xFFE6) ∨ (0x1F300 ≤ n ∧ n ≤ 0x1FAFF) ∨
     (0x20000 ≤ n ∧ n ≤ 0x2FFFD) then 2
  else 1

/-- The per-codepoint contribution inside `string_width`:
`if c.is_control() { 0 } else { width(c).unwrap_or(0) }`. -/
def charWidth (c : Char) : Nat :=
  if isControlChar c then 0 else uniWidth c

/-- Function `string_width::string_width`: strip ANSI escape sequences, then sum
the per-codepoint display widths of what remains.  (The byte-level
`from_utf8(..).unwrap_or("")` step of the source is modelled separately
at byte level below; at codepoint level it is the identity.) -/
def string_width (s : List Char) : Nat :=
  ((stripAnsi s).map charWidth).sum

/-- Worker for `splitStr`: scans the input, accumulating the current
segment (reversed) in `acc`; `skip` counts pattern characters still to
be consumed after a match.  Mirrors the leftmost, non-overlapping
semantics of Rust's `str::split` with a non-empty pattern. -/
def splitStructAux (pat : List Char) : List Char → Nat → List Char → List (List Char)
  | [], _, acc => [acc.reverse]
  | _ :: rest, skip + 1, acc => splitStructAux pat rest skip acc
  | c :: rest, 0, acc =>
      if pat.isPrefixOf (c :: rest) then
        acc.reverse :: splitStructAux pat rest (pat.length - 1) []
      else
        splitStructAux pat rest 0 (c :: acc)

/-- Rust's `str::split` with a string pattern.  An empty pattern
matches at every character boundary, yielding leading and trailing
empty segments around the single characters. -/
def splitStr (s : List Char) (pat : List Char) : List (List Char) :=
  if pat = [] then [[]] ++ s.map (fun c => [c]) ++ [[]]
  else splitStructAux pat s 0 []

/-- Rust's `[String]::join`: concatenate the segments with the
separator between consecutive segments. -/
def joinStr : List (List Char) → List Char → List Char
  | [], _ => []
  | [l], _ => l
  | l :: rest, sep => l ++ sep ++ joinStr rest sep

/-- The three alignment modes of `ansi-align`. -/
inductive Alignment : Type
  | Left
  | Center
  | Right
deriving DecidableEq

/-- Struct `AlignOptions`: alignment mode, split string, and pad character. -/
structure AlignOptions : Type where
  align : Alignment
  split : List Char
  pad : Char
deriving DecidableEq

/-- Rust's `impl Default for AlignOptions`: center alignment, newline split,
space padding. -/
def AlignOptions.default : AlignOptions :=
  { align := Alignment.Center, split := ['\n'], pad := ' ' }

/-- Constructor `AlignOptions::new`: the default options with the given mode. -/
def AlignOptions.new (a : Alignment) : AlignOptions :=
  { AlignOptions.default with align := a }

/-- The `line_data` vector of `ansi_align`: each segment of the split
paired with its measured display width. -/
def lineData (text pat : List Char) : List (List Char × Nat) :=
  (splitStr text pat).map (fun line => (line, string_width line))

/-- The `max_width` of `ansi_align`:
`line_data.iter().map(|(_, width)| *width).max().unwrap_or(0)`, written
as a fold (for natural numbers `foldr max 0` equals the maximum of the
list, and `0` when the list is empty). -/
def maxWidth (text pat : List Char) : Nat :=
  ((lineData text pat).map (fun p => p.2)).foldr max 0

/-- The `padding_needed` match inside `ansi_align`. -/
def paddingNeeded : Alignment → Nat → Nat → Nat
  | Alignment.Left, _, _ => 0
  | Alignment.Center, maxW, w => (maxW - w) / 2
  | Alignment.Right, maxW, w => maxW - w

/-- Function `ansi_align::ansi_align`: empty input is returned unchanged; left
alignment is a short-circuit no-op; otherwise split on the configured
delimiter, left-pad every segment by the mode's deficit against the
widest segment, and rejoin with the same delimiter. -/
def ansi_align (text : List Char) (opts : Option AlignOptions) : List Char :=
  if text = [] then text
  else
    let o := opts.getD AlignOptions.default
    if o.align = Alignment.Left then text
    else
      let maxW := maxWidth text o.split
      let aligned := (lineData text o.split).map
        (fun p => List.replicate (paddingNeeded o.align maxW p.2) o.pad ++ p.1)
      joinStr aligned o.split

/-- Function `ansi_align::left`. -/
def left (text : List Char) : List Char :=
  ansi_align text (some (AlignOptions.new Alignment.Left))

/-- Function `ansi_align::center`. -/
def center (text : List Char) : List Char :=
  ansi_align text (some (AlignOptions.new Alignment.Center))

/-- Function `ansi_align::right`. -/
def right (text : List Char) : List Char :=
  ansi_align text (some (AlignOptions.new Alignment.Right))

/-- Rust's `str::lines`: split on `\n`, strip one trailing `\r` from
every line that was terminated by a `\n`, and drop the empty segment
produced by a trailing line terminator. -/
def rustLines (s : List Char) : List (List Char) :=
  let parts := splitStr s ['\n']
  let trimmed := parts.dropLast.map
    (fun l => if l.getLast? = some '\r' then l.dropLast else l)
  match parts.getLast? with
  | some [] => trimmed
  | some l => trimmed ++ [l]
  | none => trimmed

/-- Function `string_width::widest_line`:
`s.lines().map(string_width).max().unwrap_or(0)`, with the maximum
written as a fold as in `maxWidth`. -/
def widest_line (s : List Char) : Nat :=
  ((rustLines s).map string_width).foldr max 0

/-- Whether the pattern occurs somewhere in the text, i.e. whether
Rust's `str::split` would find at least one match.  The empty pattern
occurs in every text. -/
def hasMatch (pat : List Char) : List Char → Bool
  | [] => pat.isEmpty
  | c :: rest => pat.isPrefixOf (c :: rest) || hasMatch pat rest

/-- The alignment algorithm exactly as the claim words it: split the
text on the configuration's delimiter, let the maximum width be the
maximum of the segments' display widths, prepend the mode's pad count
(`(max - width) / 2` for center, `max - width` for right) to each
segment, and rejoin the padded segments with the same delimiter. -/
def specAlign (text : List Char) (o : AlignOptions) : List Char :=
  let segs := splitStr text o.split
  let maxW := (segs.map string_width).foldr max 0
  let padded := segs.map (fun seg =>
    let k := match o.align with
      | Alignment.Center => (maxW - string_width seg) / 2
      | Alignment.Right => maxW - string_width seg
      | Alignment.Left => 0
    List.replicate k o.pad ++ seg)
  joinStr padded o.split

/-- A parameter or intermediate byte of a CSI sequence
(`0x20`–`0x3F`). -/
def isCsiParam (c : Char) : Prop := 0x20 ≤ c.toNat ∧ c.toNat ≤ 0x3F

instance (c : Char) : Decidable (isCsiParam c) := by
  unfold isCsiParam; infer_instance

/-- A final byte of a CSI sequence (`0x40`–`0x7E`). -/
def isCsiFinal (c : Char) : Prop := 0x40 ≤ c.toNat ∧ c.toNat ≤ 0x7E

instance (c : Char) : Decidable (isCsiFinal c) := by
  unfold isCsiFinal; infer_instance

/-- The tail of a CSI sequence after `ESC [`: zero or more parameter
bytes followed by a single final byte. -/
inductive CsiTail : List Char → Prop
  | final {c : Char} : isCsiFinal c → CsiTail [c]
  | param {c : Char} {t : List Char} : isCsiParam c → CsiTail t → CsiTail (c :: t)

/-- A (possibly empty) concatenation of recognized CSI escape
sequences — the escape-sequence wrappings quantified over by the
width-invariance property. -/
inductive EscWrap : List Char → Prop
  | nil : EscWrap []
  | seq {t e : List Char} : CsiTail t → EscWrap e → EscWrap (escChar :: '[' :: (t ++ e))

/-- Modelled from the spec: the escape-stripping scanner of the
external `strip_ansi_escapes` crate at byte level, used to state the
decode-failure fallback of `string_width` over raw bytes. -/
def stripLoopB : StripState → List Nat → List Nat
  | _, [] => []
  | .top, b :: rest =>
      if b = 0x1B then stripLoopB .esc rest
      else b :: stripLoopB .top rest
  | .esc, b :: rest =>
      if b = 0x5B then stripLoopB .csi rest
      else if b = 0x1B then 0x1B :: stripLoopB .esc rest
      else 0x1B :: b :: stripLoopB .top rest
  | .csi, b :: rest =>
      if 0x40 ≤ b ∧ b ≤ 0x7E then stripLoopB .top rest
      else if b = 0x1B then stripLoopB .esc rest
      else stripLoopB .csi rest

/-- The call `strip_ansi_escapes::strip` at byte level. -/
def stripAnsiBytes (bs : List Nat) : List Nat := stripLoopB .top bs

/-- Whether a byte is a UTF-8 continuation byte (`0x80`–`0xBF`). -/
def isCont (b : Nat) : Prop := 0x80 ≤ b ∧ b ≤ 0xBF

instance (b : Nat) : Decidable (isCont b) := by
  unfold isCont; infer_instance

/-- Strict UTF-8 decoding as performed by Rust's `str::from_utf8`:
rejects truncated sequences, invalid lead or continuation bytes,
overlong encodings, surrogates, and codepoints above `0x10FFFF`. -/
def utf8Decode : List Nat → Option (List Char)
  | [] => some []
  | b :: rest =>
    if b ≤ 0x7F then
      (utf8Decode rest).map (fun cs => Char.ofNat b :: cs)
    else if 0xC2 ≤ b ∧ b ≤ 0xDF then
      match rest with
      | b1 :: r =>
        if isCont b1 then
          (utf8Decode r).map
            (fun cs => Char.ofNat ((b - 0xC0) * 0x40 + (b1 - 0x80)) :: cs)
        else none
      | [] => none
    else if 0xE0 ≤ b ∧ b ≤ 0xEF then
      match rest with
      | b1 :: b2 :: r =>
        if ((b = 0xE0 ∧ 0xA0 ≤ b1 ∧ b1 ≤ 0xBF) ∨
            (b ≠ 0xE0 ∧ b ≠ 0xED ∧ isCont b1) ∨
            (b = 0xED ∧ 0x80 ≤ b1 ∧ b1 ≤ 0x9F)) ∧ isCont b2 then
          (utf8Decode r).map (fun cs =>
            Char.ofNat (((b - 0xE0) * 0x40 + (b1 - 0x80)) * 0x40 + (b2 - 0x80)) :: cs)
        else none
      | _ => none
    else if 0xF0 ≤ b ∧ b ≤ 0xF4 then
      match rest with
      | b1 :: b2 :: b3 :: r =>
        if ((b = 0xF0 ∧ 0x90 ≤ b1 ∧ b1 ≤ 0xBF) ∨
            (0xF1 ≤ b ∧ b ≤ 0xF3 ∧ isCont b1) ∨
            (b = 0xF4 ∧ 0x80 ≤ b1 ∧ b1 ≤ 0x8F)) ∧ isCont b2 ∧ isCont b3 then
          (utf8Decode r).map (fun cs =>
            Char.ofNat
              ((((b - 0xF0) * 0x40 + (b1 - 0x80)) * 0x40 + (b2 - 0x80)) * 0x40
                + (b3 - 0x80)) :: cs)
        else none
      | _ => none
    else none

/-- The body of `string_width` viewed at byte level: strip escape
sequences from the bytes, decode what remains
(`from_utf8(&stripped).unwrap_or("")`), and sum the per-codepoint
display widths. -/
def string_width_bytes (bs : List Nat) : Nat :=
  (((utf8Decode (stripAnsiBytes bs)).getD []).map charWidth).sum

/-! ### Generic helper lemmas -/

theorem le_foldr_max {l : List Nat} {x : Nat} (hx : x ∈ l) : x ≤ l.foldr max 0 := by
  induction l with
  | nil => cases hx
  | cons a t ih =>
    rcases List.mem_cons.mp hx with h | h
    · subst h; exact Nat.le_max_left _ _
    · exact le_trans (ih h) (Nat.le_max_right _ _)

theorem foldr_max_mem : ∀ (l : List Nat), l ≠ [] → l.foldr max 0 ∈ l := by
  intro l
  induction l with
  | nil => intro h; cases h rfl
  | cons a t ih =>
    intro _
    cases t with
    | nil => simp
    | cons b t' =>
      rcases le_total ((b :: t').foldr max 0) a with h | h
      · rw [List.foldr_cons, max_eq_left h]; simp
      · rw [List.foldr_cons, max_eq_right h]
        exact List.mem_cons_of_mem _ (ih (by simp))

theorem foldr_max_const {l : List Nat} {a : Nat} (hne : l ≠ []) (h : ∀ x ∈ l, x = a) :
    l.foldr max 0 = a := by
  induction l with
  | nil => cases hne rfl
  | cons b t ih =>
    have hb : b = a := h b (by simp)
    subst hb
    cases t with
    | nil => simp
    | cons c t' =>
      rw [List.foldr_cons, ih (by simp) (fun x hx => h x (List.mem_cons_of_mem _ hx))]
      simp

/-! ### Lemmas about `ansi_align` -/

/-- Closed form of `ansi_align` for non-empty input and a non-left
mode. -/
theorem ansi_align_eq (text : List Char) (o : AlignOptions) (ht : text ≠ [])
    (hL : o.align ≠ Alignment.Left) :
    ansi_align text (some o) =
      joinStr ((lineData text o.split).map
        (fun p => List.replicate (paddingNeeded o.align (maxWidth text o.split) p.2) o.pad ++ p.1))
        o.split := by
  unfold ansi_align
  rw [if_neg ht]
  simp only [Option.getD_some]
  rw [if_neg hL]

/-- Claim C3: For every text `s`, aligning with mode `Left` returns `s`
unchanged, whatever the configured delimiter and pad character. -/
theorem C3_left_identity (s d : List Char) (p : Char) :
    ansi_align s (some { align := Alignment.Left, split := d, pad := p }) = s := by
  unfold ansi_align
  by_cases hs : s = [] <;> simp [hs]

/-- Claim C6: For the empty input text, `ansi_align` returns the empty
text unchanged for every configuration, via the explicit
`text.is_empty()` short-circuit. -/
theorem C6_empty_identity (opts : Option AlignOptions) : ansi_align [] opts = [] := by
  unfold ansi_align
  simp

/-- Claim C8: The default alignment configuration is center mode, a line
break delimiter and a space pad, and each convenience wrapper equals
`ansi_align` called with the corresponding mode and the default
delimiter and pad. -/
theorem C8_defaults_wrappers :
    AlignOptions.default = { align := Alignment.Center, split := ['\n'], pad := ' ' } ∧
      (∀ s, left s = ansi_align s (some { align := Alignment.Left, split := ['\n'], pad := ' ' })) ∧
      (∀ s, center s = ansi_align s (some { align := Alignment.Center, split := ['\n'], pad := ' ' })) ∧
      (∀ s, right s = ansi_align s (some { align := Alignment.Right, split := ['\n'], pad := ' ' })) :=
  ⟨rfl, fun _ => rfl, fun _ => rfl, fun _ => rfl⟩

/-- Claim C9: Every width recorded in `line_data` is bounded by
`max_width`, so the `max_width - width` subtractions in `ansi_align`
never underflow. -/
theorem C9_width_le_max (text pat : List Char) (p : List Char × Nat)
    (hp : p ∈ lineData text pat) : p.2 ≤ maxWidth text pat :=
  le_foldr_max (List.mem_map_of_mem (fun q => q.2) hp)

/-- Witness for `C9_width_le_max` at the input `"hi\nhello"` split on a
newline. -/
theorem C9_w :
    (("hi".toList, 2) ∈ lineData "hi\nhello".toList ['\n']) ∧
      (("hi".toList, 2) : List Char × Nat).2 ≤ maxWidth "hi\nhello".toList ['\n'] :=
  ⟨by decide, C9_width_le_max _ _ _ (by decide)⟩

/-! ### Lemmas about splitting -/

theorem splitStructAux_ne_nil (pat : List Char) :
    ∀ (s : List Char) (skip : Nat) (acc : List Char), splitStructAux pat s skip acc ≠ [] := by
  intro s
  induction s with
  | nil => intro skip acc; simp [splitStructAux]
  | cons c rest ih =>
    intro skip acc
    cases skip with
    | zero =>
      by_cases h : pat.isPrefixOf (c :: rest)
      · simp [splitStructAux, h]
      · simpa [splitStructAux, h] using ih 0 (c :: acc)
    | succ k => simpa [splitStructAux] using ih k acc

theorem splitStr_ne_nil (s pat : List Char) : splitStr s pat ≠ [] := by
  unfold splitStr
  by_cases hp : pat = []
  · simp [hp]
  · simpa [hp] using splitStructAux_ne_nil pat s 0 []

theorem hasMatch_nil (s : List Char) : hasMatch [] s = true := by
  cases s <;> simp [hasMatch, List.isPrefixOf]

theorem splitStructAux_of_no_match (pat : List Char) :
    ∀ (s acc : List Char), hasMatch pat s = false →
      splitStructAux pat s 0 acc = [acc.reverse ++ s] := by
  intro s
  induction s with
  | nil => intro acc _; simp [splitStructAux]
  | cons c rest ih =>
    intro acc h
    rw [hasMatch] at h
    rcases Bool.or_eq_false_iff.mp h with ⟨h1, h2⟩
    rw [splitStructAux, if_neg (by simp [h1])]
    rw [ih (c :: acc) h2]
    simp

/-- Rust's `split` returns the whole text as its single segment when
the pattern does not occur in it. -/
theorem splitStr_of_no_match (s pat : List Char) (h : hasMatch pat s = false) :
    splitStr s pat = [s] := by
  have hp : pat ≠ [] := by
    intro he
    rw [he, hasMatch_nil] at h
    cases h
  unfold splitStr
  rw [if_neg hp, splitStructAux_of_no_match pat s [] h]
  simp

/-- Claim C10: For every non-empty text in which the configured delimiter
does not occur, `ansi_align` with mode center or right returns the text
unchanged. -/
theorem C10_no_delimiter_identity (text : List Char) (o : AlignOptions)
    (ht : text ≠ []) (hm : o.align = Alignment.Center ∨ o.align = Alignment.Right)
    (hocc : hasMatch o.split text = false) :
    ansi_align text (some o) = text := by
  have hL : o.align ≠ Alignment.Left := by
    rcases hm with h | h <;> simp [h]
  rw [ansi_align_eq text o ht hL]
  have hsplit : splitStr text o.split = [text] := splitStr_of_no_match _ _ hocc
  rw [lineData, hsplit]
  have hmw : maxWidth text o.split = string_width text := by
    rw [maxWidth, lineData, hsplit]
    simp
  rw [hmw]
  rcases hm with h | h <;> simp [h, paddingNeeded, joinStr]

/-- Witness for `C10_no_delimiter_identity` on `"hello"` with the
default delimiter and pad, right mode. -/
theorem C10_w :
    ("hello".toList ≠ ([] : List Char)) ∧
      ((AlignOptions.new Alignment.Right).align = Alignment.Center ∨
        (AlignOptions.new Alignment.Right).align = Alignment.Right) ∧
      hasMatch (AlignOptions.new Alignment.Right).split "hello".toList = false ∧
      ansi_align "hello".toList (some (AlignOptions.new Alignment.Right)) = "hello".toList :=
  ⟨by decide, Or.inr rfl, by decide,
    C10_no_delimiter_identity _ _ (by decide) (Or.inr rfl) (by decide)⟩

/-- Claim C1: For every non-empty text and every configuration with mode
center or right, `ansi_align` computes exactly the
split / measure / left-pad / rejoin transformation the claim
describes, as captured by `specAlign`. -/
theorem C1_align_refines_claim (text : List Char) (o : AlignOptions)
    (ht : text ≠ []) (hm : o.align = Alignment.Center ∨ o.align = Alignment.Right) :
    ansi_align text (some o) = specAlign text o := by
  have hL : o.align ≠ Alignment.Left := by
    rcases hm with h | h <;> simp [h]
  rw [ansi_align_eq text o ht hL]
  unfold specAlign
  have hmw : maxWidth text o.split = ((splitStr text o.split).map string_width).foldr max 0 := by
    rw [maxWidth, lineData, List.map_map]
    rfl
  rw [lineData, List.map_map, hmw]
  congr 1
  apply List.map_congr_left
  intro seg _
  rcases hm with h | h <;> simp [h, paddingNeeded, Function.comp]

/-- Witness for `C1_align_refines_claim` on `"hi\nhello"` with right
mode and the default delimiter and pad. -/
theorem C1_w :
    ("hi\nhello".toList ≠ ([] : List Char)) ∧
      ansi_align "hi\nhello".toList (some (AlignOptions.new Alignment.Right)) =
        specAlign "hi\nhello".toList (AlignOptions.new Alignment.Right) :=
  ⟨by decide, C1_align_refines_claim _ _ (by decide) (Or.inr rfl)⟩

/-- Claim C5: `widest_line` measures each line produced by the
line-break split with the width calculator and returns the maximum of
those values (an upper bound that is attained), returns `0` on the
empty text, and returns `5` on `"hello\nworld"` and `11` on
`"short\nlonger line\nhi"`. -/
theorem C5_widest_line :
    widest_line [] = 0 ∧
      widest_line "hello\nworld".toList = 5 ∧
      widest_line "short\nlonger line\nhi".toList = 11 ∧
      (∀ s : List Char, ∀ l ∈ rustLines s, string_width l ≤ widest_line s) ∧
      (∀ s : List Char, rustLines s ≠ [] →
        widest_line s ∈ (rustLines s).map string_width) := by
  refine ⟨by decide, by decide, by decide, ?_, ?_⟩
  · intro s l hl
    exact le_foldr_max (List.mem_map_of_mem string_width hl)
  · intro s hs
    exact foldr_max_mem _ (by simpa using hs)

/-- Witness for `C5_widest_line` on `"hello\nworld"`. -/
theorem C5_w :
    ("hello".toList ∈ rustLines "hello\nworld".toList) ∧
      string_width "hello".toList ≤ widest_line "hello\nworld".toList ∧
      (rustLines "hello\nworld".toList ≠ []) ∧
      widest_line "hello\nworld".toList ∈ (rustLines "hello\nworld".toList).map string_width :=
  ⟨by decide, C5_widest_line.2.2.2.1 _ _ (by decide), by decide,
    C5_widest_line.2.2.2.2 _ (by decide)⟩

/-! ### Lemmas about escape stripping -/

theorem stripLoop_nil (st : StripState) : stripLoop st [] = [] := by
  cases st <;> rfl

theorem csiTail_strip {t : List Char} (h : CsiTail t) (r : List Char) :
    stripLoop .csi (t ++ r) = stripLoop .top r := by
  induction h with
  | @final c hc =>
    rw [List.cons_append, List.nil_append, stripLoop,
      if_pos (show 0x40 ≤ c.toNat ∧ c.toNat ≤ 0x7E from hc)]
  | @param c t' hc ht ih =>
    have h1 : ¬(0x40 ≤ c.toNat ∧ c.toNat ≤ 0x7E) := by
      rcases hc with ⟨_, hb⟩
      omega
    have h2 : c ≠ escChar := by
      intro he
      subst he
      rcases hc with ⟨ha, _⟩
      revert ha
      decide
    rw [List.cons_append, stripLoop, if_neg h1, if_neg h2, ih]

theorem escWrap_strip_top {e : List Char} (h : EscWrap e) (r : List Char) :
    stripLoop .top (e ++ r) = stripLoop .top r := by
  induction h with
  | nil => rfl
  | @seq t e' ht he ih =>
    rw [List.cons_append, stripLoop, if_pos rfl, List.cons_append, stripLoop,
      if_pos rfl, List.append_assoc, csiTail_strip ht, ih]

theorem escWrap_width_zero {e : List Char} (h : EscWrap e) (st : StripState) :
    ((stripLoop st e).map charWidth).sum = 0 := by
  have htop : ∀ {e' : List Char}, EscWrap e' → stripLoop .top e' = [] := by
    intro e' he'
    have h0 := escWrap_strip_top he' []
    simpa using h0
  cases st
  · rw [htop h]; rfl
  · cases h with
    | nil => rfl
    | @seq t e' ht he =>
      rw [stripLoop, if_neg (by decide), if_pos rfl, stripLoop, if_pos rfl,
        csiTail_strip ht, htop he]
      decide
  · cases h with
    | nil => rfl
    | @seq t e' ht he =>
      rw [stripLoop, if_neg (by decide), if_pos rfl, stripLoop, if_pos rfl,
        csiTail_strip ht, htop he]
      rfl

theorem stripLoop_width_append {e : List Char} (he : EscWrap e) :
    ∀ (s : List Char) (st : StripState),
      ((stripLoop st (s ++ e)).map charWidth).sum = ((stripLoop st s).map charWidth).sum := by
  intro s
  induction s with
  | nil =>
    intro st
    simpa [stripLoop_nil] using escWrap_width_zero he st
  | cons c s' ih =>
    intro st
    cases st
    · by_cases hc : c = escChar
      · simp only [List.cons_append, stripLoop, if_pos hc, List.append_eq]
        exact ih .esc
      · simp only [List.cons_append, stripLoop, if_neg hc, List.map_cons, List.sum_cons,
          List.append_eq]
        rw [ih .top]
    · by_cases hb : c = '['
      · simp only [List.cons_append, stripLoop, if_pos hb, List.append_eq]
        exact ih .csi
      · by_cases hc : c = escChar
        · simp only [List.cons_append, stripLoop, if_neg hb, if_pos hc, List.map_cons,
            List.sum_cons, List.append_eq]
          rw [ih .esc]
        · simp only [List.cons_append, stripLoop, if_neg hb, if_neg hc, List.map_cons,
            List.sum_cons, List.append_eq]
          rw [ih .top]
    · by_cases hf : 0x40 ≤ c.toNat ∧ c.toNat ≤ 0x7E
      · simp only [List.cons_append, stripLoop, if_pos hf, List.append_eq]
        exact ih .top
      · by_cases hc : c = escChar
        · simp only [List.cons_append, stripLoop, if_neg hf, if_pos hc, List.append_eq]
          exact ih .esc
        · simp only [List.cons_append, stripLoop, if_neg hf, if_neg hc, List.append_eq]
          exact ih .csi

/-- Claim C4: Wrapping a text in recognized ANSI escape sequences leaves
its display width unchanged: the sequences contribute zero columns. -/
theorem C4_escape_wrap_width (s e1 e2 : List Char)
    (h1 : EscWrap e1) (h2 : EscWrap e2) :
    string_width (e1 ++ s ++ e2) = string_width s := by
  unfold string_width stripAnsi
  rw [List.append_assoc, escWrap_strip_top h1 (s ++ e2)]
  exact stripLoop_width_append h2 s .top

/-- Witness for `C4_escape_wrap_width`: the bold-on / reset wrapping of
`"hi"`. -/
theorem C4_w :
    EscWrap [escChar, '[', '1', 'm'] ∧ EscWrap [escChar, '[', '0', 'm'] ∧
      string_width ([escChar, '[', '1', 'm'] ++ "hi".toList ++ [escChar, '[', '0', 'm']) =
        string_width "hi".toList := by
  have h1 : EscWrap [escChar, '[', '1', 'm'] := by
    have h := EscWrap.seq (t := ['1', 'm']) (e := [])
      (CsiTail.param (by decide) (CsiTail.final (by decide))) EscWrap.nil
    simpa using h
  have h2 : EscWrap [escChar, '[', '0', 'm'] := by
    have h := EscWrap.seq (t := ['0', 'm']) (e := [])
      (CsiTail.param (by decide) (CsiTail.final (by decide))) EscWrap.nil
    simpa using h
  exact ⟨h1, h2, C4_escape_wrap_width _ _ _ h1 h2⟩

/-! ### Idempotence of right alignment -/

theorem stripAnsi_cons_ne {c : Char} (hc : c ≠ escChar) (t : List Char) :
    stripAnsi (c :: t) = c :: stripAnsi t := by
  unfold stripAnsi
  rw [stripLoop, if_neg hc]

theorem string_width_cons_ne {c : Char} (hc : c ≠ escChar) (t : List Char) :
    string_width (c :: t) = charWidth c + string_width t := by
  unfold string_width
  rw [stripAnsi_cons_ne hc]
  simp

theorem string_width_replicate_space (k : Nat) (l : List Char) :
    string_width (List.replicate k ' ' ++ l) = k + string_width l := by
  induction k with
  | zero => simp
  | succ n ih =>
    rw [List.replicate_succ, List.cons_append, string_width_cons_ne (by decide), ih]
    have h1 : charWidth ' ' = 1 := by decide
    rw [h1]
    omega

theorem isPrefixOf_singleton (d c : Char) (r : List Char) :
    [d].isPrefixOf (c :: r) = (d == c) := by
  simp [List.isPrefixOf]

theorem splitStructAux_single_skip_mem (d : Char) :
    ∀ (l : List Char), d ∉ l → ∀ (r acc : List Char),
      splitStructAux [d] (l ++ r) 0 acc = splitStructAux [d] r 0 (l.reverse ++ acc) := by
  intro l
  induction l with
  | nil => intro _ r acc; simp
  | cons c l' ih =>
    intro hd r acc
    rw [List.mem_cons, not_or] at hd
    rcases hd with ⟨hdc, hdl⟩
    rw [List.cons_append, splitStructAux,
      if_neg (by simp [isPrefixOf_singleton, hdc]), ih hdl r (c :: acc)]
    simp

theorem splitStructAux_single_not_mem (d : Char) :
    ∀ (s acc : List Char), d ∉ acc → ∀ l ∈ splitStructAux [d] s 0 acc, d ∉ l := by
  intro s
  induction s with
  | nil =>
    intro acc hacc l hl
    simp only [splitStructAux, List.mem_singleton] at hl
    subst hl
    simpa using hacc
  | cons c rest ih =>
    intro acc hacc l hl
    by_cases hc : d = c
    · subst hc
      rw [splitStructAux, if_pos (by rw [isPrefixOf_singleton]; simp)] at hl
      rcases List.mem_cons.mp hl with h | h
      · subst h; simpa using hacc
      · exact ih [] (by simp) l (by simpa using h)
    · rw [splitStructAux, if_neg (by rw [isPrefixOf_singleton]; simp [hc])] at hl
      exact ih (c :: acc) (by simp [hacc, hc]) l hl

theorem splitStr_single_not_mem (d : Char) (s : List Char) :
    ∀ l ∈ splitStr s [d], d ∉ l := by
  unfold splitStr
  rw [if_neg (by simp)]
  exact splitStructAux_single_not_mem d s [] (by simp)

theorem splitStr_join_single (d : Char) :
    ∀ (ls : List (List Char)), ls ≠ [] → (∀ l ∈ ls, d ∉ l) →
      splitStr (joinStr ls [d]) [d] = ls := by
  intro ls
  induction ls with
  | nil => intro h; cases h rfl
  | cons l ls' ih =>
    intro _ hfree
    have hl : d ∉ l := hfree l (by simp)
    cases ls' with
    | nil =>
      show splitStr l [d] = [l]
      unfold splitStr
      rw [if_neg (by simp)]
      have h := splitStructAux_single_skip_mem d l hl [] []
      rw [List.append_nil] at h
      rw [h, List.append_nil, splitStructAux]
      simp
    | cons l2 ls'' =>
      show splitStr (l ++ [d] ++ joinStr (l2 :: ls'') [d]) [d] = l :: l2 :: ls''
      unfold splitStr
      rw [if_neg (by simp), List.append_assoc,
        splitStructAux_single_skip_mem d l hl ([d] ++ joinStr (l2 :: ls'') [d]) [],
        List.append_nil, List.cons_append, List.nil_append, splitStructAux,
        if_pos (by rw [isPrefixOf_singleton]; simp)]
      have hrec := ih (by simp) (fun x hx => hfree x (List.mem_cons_of_mem _ hx))
      unfold splitStr at hrec
      rw [if_neg (by simp)] at hrec
      simp only [List.length_singleton, Nat.sub_self] at *
      rw [hrec]
      simp

/-- Closed form of `right` on non-empty input. -/
theorem right_eq (s : List Char) (hs : s ≠ []) :
    right s = joinStr ((splitStr s ['\n']).map
      (fun l => List.replicate
        (((splitStr s ['\n']).map string_width).foldr max 0 - string_width l) ' ' ++ l))
      ['\n'] := by
  unfold right
  rw [ansi_align_eq s _ hs (by decide)]
  have hmw : maxWidth s (AlignOptions.new Alignment.Right).split =
      ((splitStr s ['\n']).map string_width).foldr max 0 := by
    rw [maxWidth, lineData, List.map_map]
    rfl
  rw [lineData, List.map_map, hmw]
  rfl

/-- Counterexample for claim C2: `center` is not idempotent — on
`"hi\nhello"` the second pass adds a further pad to the already-padded
first line. -/
theorem C2_center_not_idem :
    center (center "hi\nhello".toList) ≠ center "hi\nhello".toList := by
  decide

/-- Claim C2, amended: `right` (right alignment with its default space
pad and newline delimiter) is idempotent on every text. -/
theorem C2_right_idem (s : List Char) : right (right s) = right s := by
  by_cases hs : s = []
  · subst hs; rfl
  · rw [right_eq s hs]
    set L := splitStr s ['\n'] with hL
    set M := (L.map string_width).foldr max 0 with hM
    set A := L.map (fun l => List.replicate (M - string_width l) ' ' ++ l) with hA
    by_cases ho : joinStr A ['\n'] = []
    · rw [ho]; rfl
    · rw [right_eq _ ho]
      have hAne : A ≠ [] := by
        rw [hA]
        simp only [ne_eq, List.map_eq_nil_iff]
        exact splitStr_ne_nil s ['\n']
      have hAfree : ∀ l ∈ A, '\n' ∉ l := by
        intro l hl
        rcases List.mem_map.mp hl with ⟨l0, hl0, rfl⟩
        intro hmem
        rcases List.mem_append.mp hmem with h | h
        · have h' := List.eq_of_mem_replicate h
          cases h'
        · exact splitStr_single_not_mem '\n' s l0 hl0 h
      rw [splitStr_join_single '\n' A hAne hAfree]
      have hwA : ∀ x ∈ A.map string_width, x = M := by
        intro x hx
        rcases List.mem_map.mp hx with ⟨a, ha, rfl⟩
        rcases List.mem_map.mp ha with ⟨l0, hl0, rfl⟩
        rw [string_width_replicate_space]
        have hle : string_width l0 ≤ M := le_foldr_max (List.mem_map_of_mem string_width hl0)
        omega
      rw [foldr_max_const (by simpa using hAne) hwA]
      have hid : ∀ a ∈ A, List.replicate (M - string_width a) ' ' ++ a = a := by
        intro a ha
        have hwa : string_width a = M := hwA _ (List.mem_map_of_mem string_width ha)
        rw [hwa]
        simp
      rw [List.map_congr_left hid]
      simp

/-- Claim C7: The width calculator's decode fallback: whenever the bytes
remaining after escape stripping do not decode as valid text, the width
is computed as for the empty text, i.e. the result is `0` rather than
an error.  (Totality is immediate: every function of the embedding
returns a value on every input.) -/
theorem C7_decode_fallback (bs : List Nat)
    (h : utf8Decode (stripAnsiBytes bs) = none) :
    string_width_bytes bs = 0 := by
  unfold string_width_bytes
  rw [h]
  rfl

/-- Witness for `C7_decode_fallback`: the byte `0xFF` survives escape
stripping and is not valid UTF-8. -/
theorem C7_w :
    utf8Decode (stripAnsiBytes [0xFF]) = none ∧ string_width_bytes [0xFF] = 0 :=
  ⟨by decide, C7_decode_fallback _ (by decide)⟩

end Boxen
